import Mathlib

/-!
Verification of the permission-reconciliation and pagination engine of the
github-org-repo-collaborator-action repository.

The definitions below are shallow embeddings of the source:
* the PowerShell engine (`src/unnamed/part_000`): permission flag scan
  (Step 8), the `$rowsByKey` direct/team merge (Step 9), the pre-filter on
  direct collaborators (Step 8), the post-merge permission filter (Step 12),
  the REST page loops (`while ($resp.Count -eq 100)`), and the
  `Invoke-GitHubREST` retry loop;
* the JavaScript action (`src/index.js`, final variant): `retryWithBackoff`,
  the `repoNames` REST page loop, the GraphQL cursor loops
  (`membersWithRole`, `ssoEmail`), and `mergeArrays`;
* the standalone PowerShell report script
  (`src/Get-GitHubOrgRepoCollaborators.ps1`): the `matchedPermission` scan.
-/

/-! ### Permission vocabulary (part_000 `$permissionDisplay`, Step 8 scan) -/

/-- The five boolean permission flags of a GitHub REST `permissions` bundle. -/
structure PermFlags where
  pull : Bool
  triage : Bool
  push : Bool
  maintain : Bool
  admin : Bool
deriving DecidableEq, Repr

/-- `$permissionDisplay` hashtable of part_000: API flag name to display name. -/
def permissionDisplay (k : String) : String :=
  if k = "pull" then "read"
  else if k = "push" then "write"
  else if k = "admin" then "admin"
  else if k = "maintain" then "maintain"
  else if k = "triage" then "triage"
  else ""

/-- Dynamic flag access `$permissions.$permKeyAPI` on a flag bundle. -/
def flagVal (f : PermFlags) (k : String) : Bool :=
  if k = "pull" then f.pull
  else if k = "push" then f.push
  else if k = "admin" then f.admin
  else if k = "maintain" then f.maintain
  else if k = "triage" then f.triage
  else false

/-- Step 8 of part_000 (lines 508-514): scan `$permissionDisplay.Keys` in the
hashtable's iteration order (unspecified, passed here as `keys`), overwriting
`$directPerm` with the display name of every truthy flag; the last truthy
flag in iteration order wins. -/
def directPermScan (keys : List String) (f : PermFlags) : String :=
  keys.foldl (fun acc k => if flagVal f k then permissionDisplay k else acc) ""

/-- `matchedPermission` scan of Get-GitHubOrgRepoCollaborators.ps1 (lines
341-349, `ALL` branch): take the first truthy flag in property iteration
order and `break`. -/
def matchedPermissionScan (props : List (String × Bool)) : String :=
  match props.find? (fun p => p.2) with
  | some p => p.1
  | none => ""

/-- The flag bundle of an admin collaborator: admin implies push and pull. -/
def adminBundle : PermFlags :=
  { pull := true, triage := false, push := true, maintain := false, admin := true }

/-! ### The ordered permission scale and the Step 9 merge (part_000) -/

/-- `$order` of Step 9: `@("read", "triage", "write", "maintain", "admin")`. -/
def permOrder : List String := ["read", "triage", "write", "maintain", "admin"]

/-- `$order.IndexOf(p)`: index in the scale, `-1` when absent. -/
def permIdx (p : String) : Int :=
  match permOrder.findIdx? (fun q => q == p) with
  | some i => (i : Int)
  | none => -1

/-- One collaborator row as built by Steps 7 and 8 of part_000. -/
structure PRow where
  orgRepo : String
  login : String
  name : String
  ssoEmail : String
  verifiedEmail : String
  permission : String
  org : String
  orgpermission : String
  viaTeam : String
deriving DecidableEq, Repr

/-- The `(repo, login)` key (`"$($c.orgRepo):$($c.login)"` in the source;
repo names and logins cannot contain `:`, so the pair is equivalent). -/
def rkey (r : PRow) : String × String := (r.orgRepo, r.login)

/-- The `$rowsByKey` hashtable, modelled as a finite map. -/
abbrev RMap := (String × String) → Option PRow

/-- Hashtable write `$rowsByKey[$key] = v`. -/
def rupdate (m : RMap) (k : String × String) (v : Option PRow) : RMap :=
  fun k2 => if k2 = k then v else m k2

/-- Seeding loop of Step 9: `foreach ($c in $collabsArray) { $rowsByKey[$key] = $c }`
(last write wins on duplicate keys). -/
def seedDirect (collabs : List PRow) : RMap :=
  collabs.foldl (fun m c => rupdate m (rkey c) (some c)) (fun _ => none)

/-- `[string]::IsNullOrWhiteSpace` (empty or all-whitespace). -/
def isNullOrWhiteSpace (s : String) : Bool :=
  s.toList.all (fun c => c.isWhitespace)

/-- The body of the team-merge loop of Step 9 (part_000 lines 555-572):
insert when the key is absent; replace when the team grant is strictly
higher on the scale; on a tie with a non-blank team slug, append
`",slug"` to the current row's `viaTeam`; otherwise leave the map alone. -/
def mergeTeamRow (m : RMap) (t : PRow) : RMap :=
  match m (rkey t) with
  | some current =>
      if permIdx t.permission > permIdx current.permission then
        rupdate m (rkey t) (some t)
      else if permIdx t.permission = permIdx current.permission ∧
          isNullOrWhiteSpace t.viaTeam = false then
        rupdate m (rkey t)
          (some { current with viaTeam := current.viaTeam ++ "," ++ t.viaTeam })
      else m
  | none => rupdate m (rkey t) (some t)

/-- Step 9 in full: seed from direct collaborators, then fold every
team-derived row into the map. -/
def rowsByKey (collabs teamRows : List PRow) : RMap :=
  teamRows.foldl mergeTeamRow (seedDirect collabs)

/-! ### Step 8 pre-filter and Step 12 post-filter (part_000) -/

/-- ASCII lower-casing (`$Permission.ToLower()`), character by character. -/
def strToLower (s : String) : String := String.mk (s.toList.map Char.toLower)

/-- Step 8 admission test (part_000 line 516):
`($Permission -eq "ALL" -and $directPerm) -or ($permKey -eq $directPerm)`
(PowerShell string comparison is case-insensitive; an empty string is falsy;
`$permKey = $Permission.ToLower()`). -/
def step8Keep (P : String) (c : PRow) : Bool :=
  (strToLower P == "all" && c.permission != "") || (strToLower P == c.permission)

/-- The direct-collaborator rows that survive Step 8's admission test. -/
def directCollect (P : String) (collabs : List PRow) : List PRow :=
  collabs.filter (step8Keep P)

/-- Step 12 (part_000 lines 606-608): when the requested permission is not
`ALL`, keep only rows whose merged permission equals `$permKey`. -/
def step12Filter (P : String) (m : RMap) : RMap :=
  if strToLower P == "all" then m
  else fun k =>
    match m k with
    | some r => if r.permission == strToLower P then some r else none
    | none => none

/-- The reconciled, permission-filtered rows of part_000:
Step 8 admission, Step 9 merge, Step 12 filter. -/
def finalRows (P : String) (collabs teamRows : List PRow) : RMap :=
  step12Filter P (rowsByKey (directCollect P collabs) teamRows)

/-! ### Retry wrappers

`retryWithBackoff` (index.js, final variant, lines 1269-1287) and the
`Invoke-GitHubREST` retry loop (part_000 lines 132-150).  An attempt is
modelled as `fn i : Except String A` (error = thrown message); the wrapper
returns the final outcome (`none` = the loop exhausted without returning,
possible only for `retries = 0`, where the JS function returns `undefined`)
together with the list of backoff delays it slept, in order. -/

/-- `error.message.includes('secondary rate limit')`. -/
def includesSecondary (msg : String) : Bool :=
  decide (List.IsInfix "secondary rate limit".toList msg.toList)

/-- Loop body of `retryWithBackoff`, at attempt `i` with `rem` attempts
remaining (`rem = retries - i`; `rem = 1` is the last attempt, JS
`i === retries - 1`).  A non-secondary error, or an error on the last
attempt, is rethrown; otherwise the wrapper sleeps `delay * 2 ^ i` and
retries. -/
def retryGo (fn : Nat → Except String A) (delay i : Nat) : Nat → Option (Except String A) × List Nat
  | 0 => (none, [])
  | r + 1 =>
    match fn i with
    | .ok v => (some (.ok v), [])
    | .error e =>
      if r = 0 ∨ includesSecondary e = false then (some (.error e), [])
      else
        let p := retryGo fn delay (i + 1) r
        (p.1, delay * 2 ^ i :: p.2)

/-- `retryWithBackoff(fn, location, retries = 5, delay = 2000)` of index.js. -/
def retryWithBackoff (fn : Nat → Except String A) (retries delay : Nat) :
    Option (Except String A) × List Nat :=
  retryGo fn delay 0 retries

/-- Loop body of `Invoke-GitHubREST` (part_000): every error is retried
(no message inspection); an error on the last attempt (`$i -eq $RetryCount-1`)
is rethrown; the backoff is `$Delay * [math]::Pow(2,$i)`. -/
def psRetryGo (fn : Nat → Except String A) (delay i : Nat) : Nat → Option (Except String A) × List Nat
  | 0 => (none, [])
  | r + 1 =>
    match fn i with
    | .ok v => (some (.ok v), [])
    | .error e =>
      if r = 0 then (some (.error e), [])
      else
        let p := psRetryGo fn delay (i + 1) r
        (p.1, delay * 2 ^ i :: p.2)

/-- `Invoke-GitHubREST` retry loop with `RetryCount` (default 5) and
`Delay` (default 2000 ms). -/
def invokeGitHubREST (fn : Nat → Except String A) (retryCount delay : Nat) :
    Option (Except String A) × List Nat :=
  psRetryGo fn delay 0 retryCount

/-! ### Offset/page-based REST loops

The paged source is a master list exposed page by page:
page `p` holds `items.drop ((p-1) * pageSize) |>.take pageSize`, as the
GitHub REST list endpoints do.  Each loop returns the assembled items and
the number of page fetches it performed.  The `fuel` argument is one more
than the number of remaining items, enough for every run. -/

/-- Page loop of part_000 (Step 2, lines 347-354, also Steps 5 and 6):
`do { $resp = fetch(page); $repos += $resp; $page++ } while ($resp.Count -eq 100)` —
it continues exactly while the last page was full. -/
def psRestGo (pageSize : Nat) : List A → Nat → List A × Nat
  | _, 0 => ([], 0)
  | items, fuel + 1 =>
    if (items.take pageSize).length = pageSize ∧ 0 < pageSize then
      (items.take pageSize ++ (psRestGo pageSize (items.drop pageSize) fuel).1,
       (psRestGo pageSize (items.drop pageSize) fuel).2 + 1)
    else (items.take pageSize, 1)

/-- The part_000 REST page loop run on a source holding `items`. -/
def psRestCollect (pageSize : Nat) (items : List A) : List A × Nat :=
  psRestGo pageSize items (items.length + 1)

/-- Page loop of `repoNames` (index.js lines 1337-1372):
`while (morePages) { repos = fetch(page); if (repos.length === 0) break; ...; page++ }` —
it continues until a page comes back empty; a short non-empty page does not
stop it. -/
def jsRestGo (pageSize : Nat) : List A → Nat → List A × Nat
  | _, 0 => ([], 0)
  | items, fuel + 1 =>
    if (items.take pageSize).isEmpty then ([], 1)
    else
      (items.take pageSize ++ (jsRestGo pageSize (items.drop pageSize) fuel).1,
       (jsRestGo pageSize (items.drop pageSize) fuel).2 + 1)

/-- The index.js `repoNames` page loop run on a source holding `items`. -/
def jsRestCollect (pageSize : Nat) (items : List A) : List A × Nat :=
  jsRestGo pageSize items (items.length + 1)

/-! ### GraphQL cursor loops (index.js `repoNames` variant 1, `membersWithRole`,
`ssoEmail`)

The server is a finite sequence of pages; the cursor is the page index
(`endCursor` of page `c` designates page `c + 1`), `hasNextPage` of page `c`
reports whether a further page exists, and fetching with an unchanged cursor
returns the same page again.  The loop is the literal do/while shape of the
source: the cursor variable is reassigned only inside the `for` loop over
the page's items, so a page with `hasNextPage = true` and no items leaves
the cursor unchanged. -/

/-- One do/while cursor loop:
fetch page `c`; for each item set `cursor := hasNextPage ? endCursor : null`
and collect the item; repeat while `hasNextPage`.  `none` means the fuel ran
out, i.e. the loop was still running. -/
def cursorLoop (pages : List (List A)) : Nat → Nat → List A → Option (List A)
  | 0, _, _ => none
  | fuel + 1, c, acc =>
    if c + 1 < pages.length then
      cursorLoop pages fuel
        (if (pages.getD c []).isEmpty then c else c + 1)
        (acc ++ pages.getD c [])
    else some (acc ++ pages.getD c [])

/-- Every page before the last carries `hasNextPage = true`; the loop's
termination precondition is that each of them is non-empty. -/
def nonFinalPagesNonempty (pages : List (List A)) : Prop :=
  ∀ l ∈ pages.dropLast, l ≠ []

/-! ### `mergeArrays` (index.js lines 1622-1652) -/

/-- A direct collaborator record pushed by `collabRole`. -/
structure Collab where
  orgRepo : String
  login : String
  name : String
  verifiedEmail : String
  permission : String
  visibility : String
  org : String
deriving DecidableEq, Repr

/-- One entry of `emailArray`. -/
structure EmailEntry where
  login : String
  ssoEmail : String
deriving DecidableEq, Repr

/-- One entry of `memberArray`. -/
structure Member where
  login : String
  role : String
deriving DecidableEq, Repr

/-- One row of `mergeArray`. -/
structure MergedRow where
  orgRepo : String
  login : String
  name : String
  ssoEmailValue : String
  verifiedEmail : String
  permission : String
  org : String
  memberValue : String
deriving DecidableEq, Repr

/-- `mergeArrays`: for each collaborator look up the first matching SSO
email and the first matching org member by login; absent lookups fall back
to `''` and `'OUTSIDE COLLABORATOR'`. -/
def mergeArrays (collabs : List Collab) (emails : List EmailEntry)
    (members : List Member) : List MergedRow :=
  collabs.map fun c =>
    { orgRepo := c.orgRepo
      login := c.login
      name := c.name
      ssoEmailValue :=
        match emails.find? (fun e => e.login == c.login) with
        | some e => e.ssoEmail
        | none => ""
      verifiedEmail := c.verifiedEmail
      permission := c.permission
      org := c.org
      memberValue :=
        match members.find? (fun m => m.login == c.login) with
        | some m => m.role
        | none => "OUTSIDE COLLABORATOR" }

/-! ### SSO identity edges (`ssoEmail` item loop, index.js lines 1546-1558,
and the part_000 `Get-GitHubOrgSSOEmails` edge loop, lines 261-268) -/

/-- One `externalIdentities` edge: the SAML `nameId` and the linked user's
login, `none` when the identity has no linked user account. -/
structure SsoEdge where
  user : Option String
  nameId : String
deriving DecidableEq, Repr

/-- The per-page edge loop: `if (!email.node.user) continue;` then push
`{ login, ssoEmail }`. -/
def ssoProcessEdges (edges : List SsoEdge) : List EmailEntry :=
  edges.foldl
    (fun acc e =>
      match e.user with
      | none => acc
      | some l => acc ++ [{ login := l, ssoEmail := e.nameId }])
    []

/-! ### Invariants of the Step 9 merge -/

/-- Invariant of the seeding loop: the map holds exactly the already-seen
direct rows, keyed by `rkey`. -/
def SeedInv (seen : List PRow) (m : RMap) : Prop :=
  ∀ k, (m k = none ↔ ∀ g ∈ seen, rkey g ≠ k)
    ∧ (∀ r, m k = some r → r ∈ seen ∧ rkey r = k)

/-- Invariant of the team-merge fold: a key is mapped iff some seen grant
has it, and the mapped row sits at that key, bounds every seen grant's
permission index from above, and attains the permission of one of them. -/
def MergeInv (grants : List PRow) (m : RMap) : Prop :=
  ∀ k, (m k = none ↔ ∀ g ∈ grants, rkey g ≠ k)
    ∧ (∀ r, m k = some r →
        rkey r = k
        ∧ (∀ g ∈ grants, rkey g = k → permIdx g.permission ≤ permIdx r.permission)
        ∧ (∃ g ∈ grants, rkey g = k ∧ g.permission = r.permission))

/-! ### Concrete inputs used by counterexamples and witnesses -/

deriving instance DecidableEq for Except

/-- A direct `read` grant for alice on repo1. -/
def exDirectRead : PRow :=
  { orgRepo := "repo1", login := "alice", name := "", ssoEmail := ""
    verifiedEmail := "", permission := "read", org := "acme"
    orgpermission := "MEMBER", viaTeam := "" }

/-- A direct `write` grant for alice on repo1. -/
def exDirectWrite : PRow :=
  { orgRepo := "repo1", login := "alice", name := "Alice", ssoEmail := ""
    verifiedEmail := "", permission := "write", org := "acme"
    orgpermission := "MEMBER", viaTeam := "" }

/-- A team-derived `admin` grant for alice on repo1 via team-a. -/
def exTeamAdmin : PRow :=
  { orgRepo := "repo1", login := "alice", name := "", ssoEmail := ""
    verifiedEmail := "", permission := "admin", org := "acme"
    orgpermission := "", viaTeam := "team-a" }

/-- A team-derived `write` grant for alice on repo1 via team-b. -/
def exTeamWrite : PRow :=
  { orgRepo := "repo1", login := "alice", name := "", ssoEmail := ""
    verifiedEmail := "", permission := "write", org := "acme"
    orgpermission := "", viaTeam := "team-b" }

/-- A call stub failing with a secondary-rate-limit error on attempts 0-4
and succeeding from attempt 5 on. -/
def fnSec5 : Nat → Except String Nat := fun i =>
  if i < 5 then .error "You have exceeded a secondary rate limit" else .ok 42

/-- A call stub failing with a secondary-rate-limit error on attempts 0-1
and succeeding from attempt 2 on. -/
def fnSec2 : Nat → Except String Nat := fun i =>
  if i < 2 then .error "secondary rate limit reached" else .ok 9

/-- The error messages of `fnSec2`. -/
def eSec2 : Nat → String := fun _ => "secondary rate limit reached"

/-- A call stub failing once with a transient network error, then
succeeding. -/
def fnTransient : Nat → Except String Nat := fun i =>
  if i = 0 then .error "connect ETIMEDOUT transient network error" else .ok 7

/-- A call stub failing with a transient network error on attempts 0-2 and
succeeding from attempt 3 on. -/
def fnFail3 : Nat → Except String Nat := fun i =>
  if i < 3 then .error "connection timeout" else .ok 7

/-- The error messages of `fnFail3`. -/
def eFail3 : Nat → String := fun _ => "connection timeout"

/-! ## Theorems -/

/-- C2: the claim states that flag-bundle normalization returns the highest
`PermissionLevel` among the true flags, independent of the iteration order
over the flag set.  The code does not: the Step 8 scan of part_000 keeps
the *last* truthy flag in the (unspecified) hashtable key order, and the
`matchedPermission` scan of the standalone script takes the *first* truthy
property and breaks.  On the bundle `admin = push = pull = true` the Step 8
scan returns `read` under one key order and `admin` under another, and the
first-truthy scan returns `pull`. -/
theorem flagScan_order_dependent :
    directPermScan ["admin", "maintain", "push", "triage", "pull"] adminBundle = "read"
    ∧ directPermScan ["pull", "triage", "push", "maintain", "admin"] adminBundle = "admin"
    ∧ matchedPermissionScan [("pull", true), ("push", true), ("admin", true)] = "pull" := by
  decide

/-- C3 counterexample: the claim states that no grant is excluded from the
merge because its own level differs from the filter.  In part_000 Step 8,
with filter `ADMIN`, a direct `read` grant fails the admission test, never
reaches the Step 9 merge, and the merged map has no row for its key. -/
theorem directFilter_pre_merge_counterexample :
    step8Keep "ADMIN" exDirectRead = false
    ∧ directCollect "ADMIN" [exDirectRead] = []
    ∧ rowsByKey (directCollect "ADMIN" [exDirectRead]) [] (rkey exDirectRead) = none := by
  decide

/-- C5 counterexample: the claim states that a call failing with a
secondary-rate-limit error exactly `retryCount` (= 5) times and then
succeeding eventually succeeds.  `retryWithBackoff` makes only `retries`
attempts in total (`for (let i = 0; i < retries; i++)`), so with `fnSec5`
(fails on attempts 0-4, would succeed on attempt 5) the wrapper rethrows
the error on its last attempt after sleeping 2000, 4000, 8000, 16000 ms. -/
theorem retry_n_failures_counterexample :
    fnSec5 5 = .ok 42
    ∧ retryWithBackoff fnSec5 5 2000 =
        (some (.error "You have exceeded a secondary rate limit"),
         [2000, 4000, 8000, 16000]) := by
  decide

/-- C6 counterexample: the claim states that a transient network error is
retried with the same backoff as a secondary-rate-limit error rather than
being propagated on the first failure.  `retryWithBackoff` rethrows any
error whose message does not contain `'secondary rate limit'` immediately:
with `fnTransient` (one transient failure, then success) the wrapper
propagates the error after attempt 0 with no backoff sleeps at all. -/
theorem transient_not_retried_counterexample :
    fnTransient 1 = .ok 7
    ∧ includesSecondary "connect ETIMEDOUT transient network error" = false
    ∧ retryWithBackoff fnTransient 5 2000 =
        (some (.error "connect ETIMEDOUT transient network error"), []) := by
  decide

/-- C7 counterexample: the claim states that for offset/page-based REST
collections a short final page terminates the loop.  That is true of the
part_000 loops (`while ($resp.Count -eq 100)`) but not of the index.js
`repoNames` loop, which continues until an *empty* page: on a 10-item
source with page size 20 the part_000 loop performs one fetch, the
index.js loop performs a second fetch (of an empty page) after the short
page. -/
theorem short_page_counterexample :
    psRestCollect 20 (List.range 10) = (List.range 10, 1)
    ∧ jsRestCollect 20 (List.range 10) = (List.range 10, 2)
    ∧ (jsRestCollect 20 (List.range 10)).2 ≠ 1 := by
  decide

/-- The `ssoEmail` edge loop collects exactly the edges with a linked user,
in order. -/
theorem ssoProcessEdges_go (edges : List SsoEdge) (acc : List EmailEntry) :
    edges.foldl
      (fun acc e =>
        match e.user with
        | none => acc
        | some l => acc ++ [{ login := l, ssoEmail := e.nameId }])
      acc
    = acc ++ edges.filterMap
        (fun e => e.user.map (fun l => { login := l, ssoEmail := e.nameId })) := by
  induction edges generalizing acc with
  | nil => simp
  | cons e rest ih =>
    cases hu : e.user with
    | none => simp [List.foldl_cons, hu, ih]
    | some l => simp [List.foldl_cons, hu, ih]

/-- `ssoProcessEdges` as a `filterMap`. -/
theorem ssoProcessEdges_eq (edges : List SsoEdge) :
    ssoProcessEdges edges
    = edges.filterMap
        (fun e => e.user.map (fun l => { login := l, ssoEmail := e.nameId })) := by
  simpa using ssoProcessEdges_go edges []

/-- C10: every entry of the assembled SSO-identity set comes from an edge
with a linked user account (so its login is the linked user's login, never
null), and an edge whose `user` is null contributes nothing — processing
simply continues with the remaining identities. -/
theorem sso_null_user_skip (edges : List SsoEdge) :
    (∀ en ∈ ssoProcessEdges edges, ∃ e ∈ edges, e.user = some en.login ∧ e.nameId = en.ssoEmail)
    ∧ (∀ (e : SsoEdge) (rest : List SsoEdge), e.user = none →
        ssoProcessEdges (e :: rest) = ssoProcessEdges rest) := by
  constructor
  · intro en hen
    rw [ssoProcessEdges_eq] at hen
    obtain ⟨e, he, hmap⟩ := List.mem_filterMap.mp hen
    cases hu : e.user with
    | none => rw [hu] at hmap; simp at hmap
    | some l =>
      rw [hu] at hmap
      simp only [Option.map_some'] at hmap
      obtain rfl : ({ login := l, ssoEmail := e.nameId } : EmailEntry) = en :=
        Option.some.inj hmap
      exact ⟨e, he, hu, rfl⟩
  · intro e rest hu
    simp [ssoProcessEdges, List.foldl_cons, hu]

/-- C10 witness: on a two-edge page whose first identity has no linked
user, the only assembled entry is alice's, it traces back to alice's edge,
and dropping a null-user edge leaves the result unchanged. -/
theorem sso_null_user_skip_witness :
    (⟨"alice", "alice@acme.io"⟩ : EmailEntry)
        ∈ ssoProcessEdges [⟨none, "ghost@acme.io"⟩, ⟨some "alice", "alice@acme.io"⟩]
    ∧ (∃ e ∈ [(⟨none, "ghost@acme.io"⟩ : SsoEdge), ⟨some "alice", "alice@acme.io"⟩],
        e.user = some (⟨"alice", "alice@acme.io"⟩ : EmailEntry).login
        ∧ e.nameId = (⟨"alice", "alice@acme.io"⟩ : EmailEntry).ssoEmail)
    ∧ ssoProcessEdges [⟨none, "ghost@acme.io"⟩, ⟨some "bob", "bob@acme.io"⟩]
        = ssoProcessEdges [⟨some "bob", "bob@acme.io"⟩] :=
  ⟨by decide,
   (sso_null_user_skip [⟨none, "ghost@acme.io"⟩, ⟨some "alice", "alice@acme.io"⟩]).1
     ⟨"alice", "alice@acme.io"⟩ (by decide),
   (sso_null_user_skip [⟨none, "ghost@acme.io"⟩, ⟨some "alice", "alice@acme.io"⟩]).2
     ⟨none, "ghost@acme.io"⟩ [⟨some "bob", "bob@acme.io"⟩] rfl⟩

/-- C8: for every row produced by `mergeArrays`, the organization-role
field equals the role of the org member with the row's login when one
exists (logins unique in `memberArray`), and equals the literal
`OUTSIDE COLLABORATOR` when the login is absent from the member set. -/
theorem org_role_lookup (collabs : List Collab) (emails : List EmailEntry)
    (members : List Member)
    (hu : ∀ m1 ∈ members, ∀ m2 ∈ members, m1.login = m2.login → m1 = m2) :
    ∀ r ∈ mergeArrays collabs emails members,
      (∀ mm ∈ members, mm.login = r.login → r.memberValue = mm.role)
      ∧ ((∀ mm ∈ members, mm.login ≠ r.login) → r.memberValue = "OUTSIDE COLLABORATOR") := by
  intro r hr
  obtain ⟨c, hc, rfl⟩ := List.mem_map.mp hr
  constructor
  · intro mm hmm hlog
    have hsome : (members.find? (fun m => m.login == c.login)).isSome := by
      rw [List.find?_isSome]
      exact ⟨mm, hmm, by simpa using hlog⟩
    obtain ⟨m0, hm0⟩ := Option.isSome_iff_exists.mp hsome
    have hp := List.find?_some hm0
    have hmem : m0 ∈ members := List.mem_of_find?_eq_some hm0
    have heq : m0 = mm := by
      apply hu m0 hmem mm hmm
      rw [eq_of_beq hp]
      exact hlog.symm
    subst heq
    simp [hm0]
  · intro hno
    have hnone : members.find? (fun m => m.login == c.login) = none := by
      rw [List.find?_eq_none]
      intro m hm
      simp only [beq_iff_eq]
      exact fun h => hno m hm h
    simp [hnone]

/-- C4: when a team-derived grant ties with the current row's permission
(and carries a non-blank team slug), the Step 9 merge keeps the current row
— permission, winning source and all other fields unchanged — and only
appends `",slug"` to its `viaTeam` provenance; every other key is left
alone. -/
theorem tie_appends_via_team (m : RMap) (t cur : PRow)
    (hm : m (rkey t) = some cur)
    (heq : permIdx t.permission = permIdx cur.permission)
    (hws : isNullOrWhiteSpace t.viaTeam = false) :
    (mergeTeamRow m t) (rkey t)
      = some { cur with viaTeam := cur.viaTeam ++ "," ++ t.viaTeam }
    ∧ ∀ k, k ≠ rkey t → (mergeTeamRow m t) k = m k := by
  have hnotgt : ¬ permIdx t.permission > permIdx cur.permission := by
    rw [heq]
    exact lt_irrefl _
  constructor
  · simp only [mergeTeamRow, hm, if_neg hnotgt, if_pos (And.intro heq hws), rupdate,
      if_pos rfl, eq_self_iff_true, if_true]
  · intro k hk
    simp only [mergeTeamRow, hm, if_neg hnotgt, if_pos (And.intro heq hws), rupdate,
      if_neg hk]

/-- C4 witness: direct `write` for alice seeded, team-b also resolves to
`write`: the merged row keeps the direct row and permission `write`, with
`viaTeam` now `",team-b"`. -/
theorem tie_appends_via_team_witness :
    seedDirect [exDirectWrite] (rkey exTeamWrite) = some exDirectWrite
    ∧ permIdx exTeamWrite.permission = permIdx exDirectWrite.permission
    ∧ isNullOrWhiteSpace exTeamWrite.viaTeam = false
    ∧ (mergeTeamRow (seedDirect [exDirectWrite]) exTeamWrite) (rkey exTeamWrite)
        = some { exDirectWrite with
            viaTeam := exDirectWrite.viaTeam ++ "," ++ exTeamWrite.viaTeam }
    ∧ ∀ k, k ≠ rkey exTeamWrite →
        (mergeTeamRow (seedDirect [exDirectWrite]) exTeamWrite) k
          = seedDirect [exDirectWrite] k :=
  ⟨by decide, by decide, by decide,
   (tie_appends_via_team (seedDirect [exDirectWrite]) exTeamWrite exDirectWrite
     (by decide) (by decide) (by decide)).1,
   (tie_appends_via_team (seedDirect [exDirectWrite]) exTeamWrite exDirectWrite
     (by decide) (by decide) (by decide)).2⟩

/-- The seeding loop preserves `SeedInv`. -/
theorem seed_fold_inv (l : List PRow) : ∀ (seen : List PRow) (m : RMap),
    SeedInv seen m →
    SeedInv (seen ++ l) (l.foldl (fun m c => rupdate m (rkey c) (some c)) m) := by
  induction l with
  | nil =>
    intro seen m h
    simpa using h
  | cons c l ih =>
    intro seen m h
    have hstep : SeedInv (seen ++ [c]) (rupdate m (rkey c) (some c)) := by
      intro k
      by_cases hk : k = rkey c
      · subst hk
        constructor
        · constructor
          · intro h0
            simp only [rupdate, if_pos rfl] at h0
            exact Option.noConfusion h0
          · intro hall
            exact absurd rfl (hall c (by simp))
        · intro r hr
          simp only [rupdate, if_pos rfl] at hr
          obtain rfl := Option.some.inj hr
          exact ⟨by simp, rfl⟩
      · have hval : rupdate m (rkey c) (some c) k = m k := by
          simp only [rupdate, if_neg hk]
        constructor
        · rw [hval, (h k).1]
          constructor
          · intro hall g hg
            rcases List.mem_append.mp hg with h1 | h2
            · exact hall g h1
            · simp only [List.mem_singleton] at h2
              subst h2
              exact fun he => hk he.symm
          · intro hall g hg
            exact hall g (List.mem_append_left _ hg)
        · intro r hr
          rw [hval] at hr
          obtain ⟨hrmem, hrk⟩ := (h k).2 r hr
          exact ⟨List.mem_append_left _ hrmem, hrk⟩
    have h3 := ih (seen ++ [c]) (rupdate m (rkey c) (some c)) hstep
    rw [List.foldl_cons]
    rw [List.append_assoc, List.singleton_append] at h3
    exact h3

/-- `MergeInv` extension at a key other than the processed team row's. -/
theorem mergeInv_extend_other (grants : List PRow) (m : RMap) (t : PRow)
    (k : String × String) (h : MergeInv grants m) (hk : k ≠ rkey t) :
    (m k = none ↔ ∀ g ∈ grants ++ [t], rkey g ≠ k)
    ∧ (∀ r, m k = some r →
        rkey r = k
        ∧ (∀ g ∈ grants ++ [t], rkey g = k → permIdx g.permission ≤ permIdx r.permission)
        ∧ (∃ g ∈ grants ++ [t], rkey g = k ∧ g.permission = r.permission)) := by
  constructor
  · rw [(h k).1]
    constructor
    · intro hall g hg
      rcases List.mem_append.mp hg with h1 | h2
      · exact hall g h1
      · simp only [List.mem_singleton] at h2
        subst h2
        exact fun he => hk he.symm
    · intro hall g hg
      exact hall g (List.mem_append_left _ hg)
  · intro r hr
    obtain ⟨hrk, hbound, g0, hg0, hg0k, hg0p⟩ := (h k).2 r hr
    refine ⟨hrk, ?_, ⟨g0, List.mem_append_left _ hg0, hg0k, hg0p⟩⟩
    intro g hg hgk
    rcases List.mem_append.mp hg with h1 | h2
    · exact hbound g h1 hgk
    · simp only [List.mem_singleton] at h2
      subst h2
      exact absurd hgk.symm hk

/-- Equation of `mergeTeamRow` when the key is absent. -/
theorem mergeTeamRow_none (m : RMap) (t : PRow) (hm : m (rkey t) = none) :
    mergeTeamRow m t = rupdate m (rkey t) (some t) := by
  rw [mergeTeamRow, hm]

/-- Equation of `mergeTeamRow` when the key is present. -/
theorem mergeTeamRow_some (m : RMap) (t cur : PRow) (hm : m (rkey t) = some cur) :
    mergeTeamRow m t =
      if permIdx t.permission > permIdx cur.permission then rupdate m (rkey t) (some t)
      else if permIdx t.permission = permIdx cur.permission ∧
          isNullOrWhiteSpace t.viaTeam = false then
        rupdate m (rkey t) (some { cur with viaTeam := cur.viaTeam ++ "," ++ t.viaTeam })
      else m := by
  rw [mergeTeamRow, hm]

/-- One Step 9 team-merge step preserves `MergeInv`. -/
theorem mergeInv_step (grants : List PRow) (m : RMap) (t : PRow)
    (h : MergeInv grants m) : MergeInv (grants ++ [t]) (mergeTeamRow m t) := by
  intro k
  cases hm : m (rkey t) with
  | none =>
    rw [mergeTeamRow_none m t hm]
    by_cases hk : k = rkey t
    · subst hk
      constructor
      · constructor
        · intro h0
          simp only [rupdate, if_pos rfl] at h0
          exact Option.noConfusion h0
        · intro hall
          exact absurd rfl (hall t (by simp))
      · intro r hr
        simp only [rupdate, if_pos rfl] at hr
        obtain rfl := Option.some.inj hr
        refine ⟨rfl, ?_, ⟨t, by simp, rfl, rfl⟩⟩
        intro g hg hgk
        rcases List.mem_append.mp hg with h1 | h2
        · exact absurd hgk (((h (rkey t)).1.mp hm) g h1)
        · simp only [List.mem_singleton] at h2
          subst h2
          exact le_refl _
    · have hval : rupdate m (rkey t) (some t) k = m k := by
        simp only [rupdate, if_neg hk]
      rw [hval]
      exact mergeInv_extend_other grants m t k h hk
  | some cur =>
    obtain ⟨hcurk, hcurbound, hcuratt⟩ := (h (rkey t)).2 cur hm
    by_cases hgt : permIdx t.permission > permIdx cur.permission
    · rw [mergeTeamRow_some m t cur hm, if_pos hgt]
      by_cases hk : k = rkey t
      · subst hk
        constructor
        · constructor
          · intro h0
            simp only [rupdate, if_pos rfl] at h0
            exact Option.noConfusion h0
          · intro hall
            exact absurd rfl (hall t (by simp))
        · intro r hr
          simp only [rupdate, if_pos rfl] at hr
          obtain rfl := Option.some.inj hr
          refine ⟨rfl, ?_, ⟨t, by simp, rfl, rfl⟩⟩
          intro g hg hgk
          rcases List.mem_append.mp hg with h1 | h2
          · exact le_trans (hcurbound g h1 hgk) (le_of_lt hgt)
          · simp only [List.mem_singleton] at h2
            subst h2
            exact le_refl _
      · have hval : rupdate m (rkey t) (some t) k = m k := by
          simp only [rupdate, if_neg hk]
        rw [hval]
        exact mergeInv_extend_other grants m t k h hk
    · by_cases htie : permIdx t.permission = permIdx cur.permission ∧
          isNullOrWhiteSpace t.viaTeam = false
      · rw [mergeTeamRow_some m t cur hm, if_neg hgt, if_pos htie]
        by_cases hk : k = rkey t
        · subst hk
          constructor
          · constructor
            · intro h0
              simp only [rupdate, if_pos rfl] at h0
              exact Option.noConfusion h0
            · intro hall
              exact absurd rfl (hall t (by simp))
          · intro r hr
            simp only [rupdate, if_pos rfl] at hr
            obtain rfl := Option.some.inj hr
            refine ⟨hcurk, ?_, ?_⟩
            · intro g hg hgk
              rcases List.mem_append.mp hg with h1 | h2
              · exact hcurbound g h1 hgk
              · simp only [List.mem_singleton] at h2
                subst h2
                exact le_of_eq htie.1
            · obtain ⟨g0, hg0, hg0k, hg0p⟩ := hcuratt
              exact ⟨g0, List.mem_append_left _ hg0, hg0k, hg0p⟩
        · have hval : rupdate m (rkey t)
              (some { cur with viaTeam := cur.viaTeam ++ "," ++ t.viaTeam }) k = m k := by
            simp only [rupdate, if_neg hk]
          rw [hval]
          exact mergeInv_extend_other grants m t k h hk
      · rw [mergeTeamRow_some m t cur hm, if_neg hgt, if_neg htie]
        by_cases hk : k = rkey t
        · subst hk
          constructor
          · constructor
            · intro h0
              rw [h0] at hm
              exact Option.noConfusion hm
            · intro hall
              exact absurd rfl (hall t (by simp))
          · intro r hr
            rw [hm] at hr
            obtain rfl := Option.some.inj hr
            refine ⟨hcurk, ?_, ?_⟩
            · intro g hg hgk
              rcases List.mem_append.mp hg with h1 | h2
              · exact hcurbound g h1 hgk
              · simp only [List.mem_singleton] at h2
                subst h2
                exact le_of_not_lt hgt
            · obtain ⟨g0, hg0, hg0k, hg0p⟩ := hcuratt
              exact ⟨g0, List.mem_append_left _ hg0, hg0k, hg0p⟩
        · exact mergeInv_extend_other grants m t k h hk

/-- Folding team rows through the Step 9 merge preserves `MergeInv`. -/
theorem mergeInv_fold (l : List PRow) : ∀ (grants : List PRow) (m : RMap),
    MergeInv grants m → MergeInv (grants ++ l) (l.foldl mergeTeamRow m) := by
  induction l with
  | nil =>
    intro grants m h
    simpa using h
  | cons t l ih =>
    intro grants m h
    have h3 := ih (grants ++ [t]) (mergeTeamRow m t) (mergeInv_step grants m t h)
    rw [List.foldl_cons]
    rw [List.append_assoc, List.singleton_append] at h3
    exact h3

/-- The seeded map satisfies `MergeInv` when direct grants are unique per
key. -/
theorem mergeInv_seed (collabs : List PRow)
    (hU : ∀ c1 ∈ collabs, ∀ c2 ∈ collabs, rkey c1 = rkey c2 → c1 = c2) :
    MergeInv collabs (seedDirect collabs) := by
  have h0 : SeedInv [] (fun _ => none) := by
    intro k
    constructor
    · simp
    · intro r hr
      exact Option.noConfusion hr
  have hseed : SeedInv collabs (seedDirect collabs) := by
    simpa using seed_fold_inv collabs [] (fun _ => none) h0
  intro k
  obtain ⟨hnone, hsome⟩ := hseed k
  refine ⟨hnone, ?_⟩
  intro r hr
  obtain ⟨hrmem, hrk⟩ := hsome r hr
  refine ⟨hrk, ?_, ⟨r, hrmem, hrk, rfl⟩⟩
  intro g hg hgk
  have hgr : g = r := hU g hg r hrmem (by rw [hgk, hrk])
  rw [hgr]

/-- C1: assuming at most one direct grant per `(repo, login)` key, the
Step 9 merge produces (at most) one row per key; a key is mapped exactly
when some contributing grant — direct or team-derived — carries it, and the
mapped row sits at that key, its permission index bounds every contributing
grant's permission from above on the
`read < triage < write < maintain < admin` scale, and is attained by one of
them: the merged permission is the maximum over all contributing grants, so
a lower team grant never lowers a higher direct grant and a higher team
grant replaces a lower direct one. -/
theorem mergeEngine_unique_max (collabs teamRows : List PRow)
    (hU : ∀ c1 ∈ collabs, ∀ c2 ∈ collabs, rkey c1 = rkey c2 → c1 = c2) :
    ∀ k, (rowsByKey collabs teamRows k = none ↔ ∀ g ∈ collabs ++ teamRows, rkey g ≠ k)
      ∧ (∀ r, rowsByKey collabs teamRows k = some r →
          rkey r = k
          ∧ (∀ g ∈ collabs ++ teamRows, rkey g = k →
              permIdx g.permission ≤ permIdx r.permission)
          ∧ (∃ g ∈ collabs ++ teamRows, rkey g = k ∧ g.permission = r.permission)) :=
  mergeInv_fold teamRows collabs (seedDirect collabs) (mergeInv_seed collabs hU)

/-- C1 witness: direct `write` plus team-a `admin` for alice on repo1; the
merged map satisfies the unique-key/maximum characterization. -/
theorem mergeEngine_unique_max_witness :
    (∀ c1 ∈ [exDirectWrite], ∀ c2 ∈ [exDirectWrite], rkey c1 = rkey c2 → c1 = c2)
    ∧ ∀ k, (rowsByKey [exDirectWrite] [exTeamAdmin] k = none
          ↔ ∀ g ∈ [exDirectWrite] ++ [exTeamAdmin], rkey g ≠ k)
      ∧ (∀ r, rowsByKey [exDirectWrite] [exTeamAdmin] k = some r →
          rkey r = k
          ∧ (∀ g ∈ [exDirectWrite] ++ [exTeamAdmin], rkey g = k →
              permIdx g.permission ≤ permIdx r.permission)
          ∧ (∃ g ∈ [exDirectWrite] ++ [exTeamAdmin], rkey g = k ∧ g.permission = r.permission)) :=
  ⟨by decide, mergeEngine_unique_max [exDirectWrite] [exTeamAdmin] (by decide)⟩

/-- C3 amended: with a non-`ALL` filter, a direct grant whose own level
differs from the filter is excluded before the merge (Step 8); team grants
are never pre-filtered, so a user holding such a direct grant plus a team
grant at the filter level still appears in the filtered output — as the
team-derived row at the filter level — and every surviving row's merged
permission equals the filter level (Step 12). -/
theorem filter_after_merge_amended (P : String) (c t : PRow)
    (hP : strToLower P ≠ "all")
    (_hk : rkey c = rkey t)
    (hcl : c.permission ≠ strToLower P)
    (htl : t.permission = strToLower P) :
    directCollect P [c] = []
    ∧ finalRows P [c] [t] (rkey t) = some t
    ∧ ∀ k r, finalRows P [c] [t] k = some r → r.permission = strToLower P := by
  have hPb : (strToLower P == "all") = false := beq_eq_false_iff_ne.mpr hP
  have hkeep : step8Keep P c = false := by
    rw [step8Keep, hPb]
    have h2 : (strToLower P == c.permission) = false :=
      beq_eq_false_iff_ne.mpr (fun h => hcl h.symm)
    rw [h2]
    rfl
  have hdc : directCollect P [c] = [] := by
    rw [directCollect]
    simp [List.filter, hkeep]
  have hrbk : rowsByKey [] [t] (rkey t) = some t := by
    rw [rowsByKey, List.foldl_cons, List.foldl_nil, mergeTeamRow_none _ t rfl]
    simp [rupdate]
  refine ⟨hdc, ?_, ?_⟩
  · rw [finalRows, hdc, step12Filter, hPb]
    simp only [Bool.false_eq_true, if_false]
    rw [hrbk]
    have hbt : (t.permission == strToLower P) = true := beq_iff_eq.mpr htl
    change (if (t.permission == strToLower P) = true then some t else none) = some t
    rw [if_pos hbt]
  · intro k r hr
    rw [finalRows, hdc, step12Filter, hPb] at hr
    simp only [Bool.false_eq_true, if_false] at hr
    cases hm : rowsByKey [] [t] k with
    | none =>
      rw [hm] at hr
      exact Option.noConfusion hr
    | some r2 =>
      rw [hm] at hr
      change (if (r2.permission == strToLower P) = true then some r2 else none) = some r at hr
      by_cases hp : (r2.permission == strToLower P) = true
      · rw [if_pos hp] at hr
        obtain rfl := Option.some.inj hr
        exact beq_iff_eq.mp hp
      · rw [if_neg hp] at hr
        exact Option.noConfusion hr

/-- C3 amended witness: filter `ADMIN`, direct `read` plus team-a `admin`
for alice on repo1. -/
theorem filter_after_merge_amended_witness :
    strToLower "ADMIN" ≠ "all"
    ∧ rkey exDirectRead = rkey exTeamAdmin
    ∧ exDirectRead.permission ≠ strToLower "ADMIN"
    ∧ exTeamAdmin.permission = strToLower "ADMIN"
    ∧ directCollect "ADMIN" [exDirectRead] = []
    ∧ finalRows "ADMIN" [exDirectRead] [exTeamAdmin] (rkey exTeamAdmin) = some exTeamAdmin
    ∧ ∀ k r, finalRows "ADMIN" [exDirectRead] [exTeamAdmin] k = some r →
        r.permission = strToLower "ADMIN" :=
  ⟨by decide, by decide, by decide, by decide,
   (filter_after_merge_amended "ADMIN" exDirectRead exTeamAdmin
     (by decide) (by decide) (by decide) (by decide)).1,
   (filter_after_merge_amended "ADMIN" exDirectRead exTeamAdmin
     (by decide) (by decide) (by decide) (by decide)).2.1,
   (filter_after_merge_amended "ADMIN" exDirectRead exTeamAdmin
     (by decide) (by decide) (by decide) (by decide)).2.2⟩

/-- Equation of `retryGo` when the attempt succeeds. -/
theorem retryGo_ok_eq (fn : Nat → Except String A) (delay i r : Nat) (v : A)
    (h : fn i = .ok v) :
    retryGo fn delay i (r + 1) = (some (.ok v), []) := by
  rw [retryGo, h]

/-- Equation of `retryGo` when the attempt throws. -/
theorem retryGo_err_eq (fn : Nat → Except String A) (delay i r : Nat) (es : String)
    (h : fn i = .error es) :
    retryGo fn delay i (r + 1) =
      if r = 0 ∨ includesSecondary es = false then (some (.error es), [])
      else ((retryGo fn delay (i + 1) r).1,
            delay * 2 ^ i :: (retryGo fn delay (i + 1) r).2) := by
  rw [retryGo, h]

/-- Equation of `psRetryGo` when the attempt succeeds. -/
theorem psRetryGo_ok_eq (fn : Nat → Except String A) (delay i r : Nat) (v : A)
    (h : fn i = .ok v) :
    psRetryGo fn delay i (r + 1) = (some (.ok v), []) := by
  rw [psRetryGo, h]

/-- Equation of `psRetryGo` when the attempt throws. -/
theorem psRetryGo_err_eq (fn : Nat → Except String A) (delay i r : Nat) (es : String)
    (h : fn i = .error es) :
    psRetryGo fn delay i (r + 1) =
      if r = 0 then (some (.error es), [])
      else ((psRetryGo fn delay (i + 1) r).1,
            delay * 2 ^ i :: (psRetryGo fn delay (i + 1) r).2) := by
  rw [psRetryGo, h]

/-- `retryGo` reaches the first succeeding attempt when all earlier
attempts throw secondary-rate-limit errors, sleeping `delay * 2 ^ j` after
each failed attempt `j`. -/
theorem retryGo_ok_spec (fn : Nat → Except String A) (e : Nat → String) (delay : Nat)
    (v : A) : ∀ (r i k : Nat),
    (∀ j, i ≤ j → j < k → fn j = .error (e j) ∧ includesSecondary (e j) = true) →
    fn k = .ok v → i ≤ k → k < i + r →
    retryGo fn delay i r
      = (some (.ok v), (List.range' i (k - i)).map (fun j => delay * 2 ^ j)) := by
  intro r
  induction r with
  | zero =>
    intro i k hfail hok hik hkr
    exact absurd hkr (by omega)
  | succ r ih =>
    intro i k hfail hok hik hkr
    rcases Nat.eq_or_lt_of_le hik with heq | hlt
    · subst heq
      rw [retryGo_ok_eq fn delay i r v hok]
      simp [Nat.sub_self]
    · have hfi := hfail i (le_refl i) hlt
      rw [retryGo_err_eq fn delay i r (e i) hfi.1]
      have hcond : ¬(r = 0 ∨ includesSecondary (e i) = false) := by
        rintro (h0 | h0)
        · omega
        · rw [hfi.2] at h0
          exact Bool.noConfusion h0
      rw [if_neg hcond]
      have hih := ih (i + 1) k (fun j hj1 hj2 => hfail j (by omega) hj2) hok
        (by omega) (by omega)
      rw [hih]
      have hki : k - i = (k - (i + 1)) + 1 := by omega
      rw [hki, List.range'_succ]
      simp

/-- `retryGo` rethrows the last error when all attempts throw
secondary-rate-limit errors, after sleeping `r - 1` times. -/
theorem retryGo_allfail_spec (fn : Nat → Except String A) (e : Nat → String)
    (delay : Nat) : ∀ (r i : Nat), 0 < r →
    (∀ j, i ≤ j → j < i + r → fn j = .error (e j) ∧ includesSecondary (e j) = true) →
    retryGo fn delay i r
      = (some (.error (e (i + r - 1))),
         (List.range' i (r - 1)).map (fun j => delay * 2 ^ j)) := by
  intro r
  induction r with
  | zero =>
    intro i h0
    exact absurd h0 (by omega)
  | succ r ih =>
    intro i _ hfail
    have hfi := hfail i (le_refl i) (by omega)
    rw [retryGo_err_eq fn delay i r (e i) hfi.1]
    by_cases hr : r = 0
    · subst hr
      rw [if_pos (Or.inl rfl)]
      simp
    · have hcond : ¬(r = 0 ∨ includesSecondary (e i) = false) := by
        rintro (h0 | h0)
        · exact hr h0
        · rw [hfi.2] at h0
          exact Bool.noConfusion h0
      rw [if_neg hcond]
      have hih := ih (i + 1) (by omega) (fun j hj1 hj2 => hfail j (by omega) (by omega))
      rw [hih]
      have hidx : i + 1 + r - 1 = i + (r + 1) - 1 := by omega
      rw [hidx]
      have h2 : (r + 1) - 1 = (r - 1) + 1 := by omega
      rw [h2, List.range'_succ]
      simp

/-- `psRetryGo` reaches the first succeeding attempt when all earlier
attempts throw (any error kind), sleeping `delay * 2 ^ j` after each failed
attempt `j`. -/
theorem psRetryGo_ok_spec (fn : Nat → Except String A) (e : Nat → String) (delay : Nat)
    (v : A) : ∀ (r i k : Nat),
    (∀ j, i ≤ j → j < k → fn j = .error (e j)) →
    fn k = .ok v → i ≤ k → k < i + r →
    psRetryGo fn delay i r
      = (some (.ok v), (List.range' i (k - i)).map (fun j => delay * 2 ^ j)) := by
  intro r
  induction r with
  | zero =>
    intro i k hfail hok hik hkr
    exact absurd hkr (by omega)
  | succ r ih =>
    intro i k hfail hok hik hkr
    rcases Nat.eq_or_lt_of_le hik with heq | hlt
    · subst heq
      rw [psRetryGo_ok_eq fn delay i r v hok]
      simp [Nat.sub_self]
    · have hfi := hfail i (le_refl i) hlt
      rw [psRetryGo_err_eq fn delay i r (e i) hfi]
      rw [if_neg (by omega : ¬ r = 0)]
      have hih := ih (i + 1) k (fun j hj1 hj2 => hfail j (by omega) hj2) hok
        (by omega) (by omega)
      rw [hih]
      have hki : k - i = (k - (i + 1)) + 1 := by omega
      rw [hki, List.range'_succ]
      simp

/-- `psRetryGo` rethrows the last error when every attempt throws. -/
theorem psRetryGo_allfail_spec (fn : Nat → Except String A) (e : Nat → String)
    (delay : Nat) : ∀ (r i : Nat), 0 < r →
    (∀ j, i ≤ j → j < i + r → fn j = .error (e j)) →
    psRetryGo fn delay i r
      = (some (.error (e (i + r - 1))),
         (List.range' i (r - 1)).map (fun j => delay * 2 ^ j)) := by
  intro r
  induction r with
  | zero =>
    intro i h0
    exact absurd h0 (by omega)
  | succ r ih =>
    intro i _ hfail
    have hfi := hfail i (le_refl i) (by omega)
    rw [psRetryGo_err_eq fn delay i r (e i) hfi]
    by_cases hr : r = 0
    · subst hr
      rw [if_pos rfl]
      simp
    · rw [if_neg hr]
      have hih := ih (i + 1) (by omega) (fun j hj1 hj2 => hfail j (by omega) (by omega))
      rw [hih]
      have hidx : i + 1 + r - 1 = i + (r + 1) - 1 := by omega
      rw [hidx]
      have h2 : (r + 1) - 1 = (r - 1) + 1 := by omega
      rw [h2, List.range'_succ]
      simp

/-- C5 amended: `retryWithBackoff` makes at most `retries` attempts in
total.  If the call fails with secondary-rate-limit errors on fewer than
`retries` attempts and then succeeds, the wrapper succeeds, sleeping
`delay * 2 ^ j` after each failed attempt `j`; if all `retries` attempts
fail with secondary-rate-limit errors, the last error surfaces to the
caller (so failing `retries` times — not `retries + 1` — is already
fatal). -/
theorem retry_backoff_amended (fn : Nat → Except String A) (e : Nat → String)
    (retries delay k : Nat) (v : A) :
    ((∀ j, j < k → fn j = .error (e j) ∧ includesSecondary (e j) = true) →
      fn k = .ok v → k < retries →
      retryWithBackoff fn retries delay
        = (some (.ok v), (List.range k).map (fun j => delay * 2 ^ j)))
    ∧ ((∀ j, j < retries → fn j = .error (e j) ∧ includesSecondary (e j) = true) →
      0 < retries →
      retryWithBackoff fn retries delay
        = (some (.error (e (retries - 1))),
           (List.range (retries - 1)).map (fun j => delay * 2 ^ j))) := by
  constructor
  · intro hfail hok hkr
    rw [retryWithBackoff,
      retryGo_ok_spec fn e delay v retries 0 k (fun j hj1 hj2 => hfail j hj2) hok
        (Nat.zero_le k) (by omega)]
    simp [List.range_eq_range']
  · intro hfail h0
    rw [retryWithBackoff,
      retryGo_allfail_spec fn e delay retries 0 h0 (fun j hj1 hj2 => hfail j (by omega))]
    simp [List.range_eq_range']

/-- C5 amended witness: two secondary failures then success, with
`retries = 5`, `delay = 2000`: overall success after sleeping 2000 and
4000 ms. -/
theorem retry_backoff_amended_witness :
    (∀ j, j < 2 → fnSec2 j = .error (eSec2 j) ∧ includesSecondary (eSec2 j) = true)
    ∧ fnSec2 2 = .ok 9
    ∧ 2 < 5
    ∧ retryWithBackoff fnSec2 5 2000
        = (some (.ok 9), (List.range 2).map (fun j => 2000 * 2 ^ j)) :=
  ⟨by decide, by decide, by decide,
   (retry_backoff_amended fnSec2 eSec2 5 2000 2 9).1 (by decide) (by decide) (by decide)⟩

/-- C6 amended: `retryWithBackoff` retries only secondary-rate-limit
errors — any other error, a transient network error included, propagates on
its first occurrence with no backoff; the PowerShell `Invoke-GitHubREST`
loop retries every error kind with the same `delay * 2 ^ j` backoff; and in
both wrappers a failure on the final attempt propagates to the caller. -/
theorem transient_retry_amended (fn : Nat → Except String A) (e : Nat → String)
    (retries delay k : Nat) (v : A) :
    (∀ e0, fn 0 = .error e0 → includesSecondary e0 = false → 0 < retries →
        retryWithBackoff fn retries delay = (some (.error e0), []))
    ∧ ((∀ j, j < k → fn j = .error (e j)) → fn k = .ok v → k < retries →
        invokeGitHubREST fn retries delay
          = (some (.ok v), (List.range k).map (fun j => delay * 2 ^ j)))
    ∧ ((∀ j, j < retries → fn j = .error (e j)) → 0 < retries →
        invokeGitHubREST fn retries delay
          = (some (.error (e (retries - 1))),
             (List.range (retries - 1)).map (fun j => delay * 2 ^ j))) := by
  refine ⟨?_, ?_, ?_⟩
  · intro e0 herr hsec h0
    obtain ⟨r, rfl⟩ : ∃ r, retries = r + 1 := ⟨retries - 1, by omega⟩
    rw [retryWithBackoff, retryGo_err_eq fn delay 0 r e0 herr,
      if_pos (Or.inr hsec)]
  · intro hfail hok hkr
    rw [invokeGitHubREST,
      psRetryGo_ok_spec fn e delay v retries 0 k (fun j hj1 hj2 => hfail j hj2) hok
        (Nat.zero_le k) (by omega)]
    simp [List.range_eq_range']
  · intro hfail h0
    rw [invokeGitHubREST,
      psRetryGo_allfail_spec fn e delay retries 0 h0
        (fun j hj1 hj2 => hfail j (by omega))]
    simp [List.range_eq_range']

/-- C6 amended witness: a transient error propagates immediately from
`retryWithBackoff`, while `Invoke-GitHubREST` retries three transient
failures and succeeds with backoff sleeps 2000, 4000, 8000 ms. -/
theorem transient_retry_amended_witness :
    fnTransient 0 = .error "connect ETIMEDOUT transient network error"
    ∧ includesSecondary "connect ETIMEDOUT transient network error" = false
    ∧ 0 < 5
    ∧ retryWithBackoff fnTransient 5 2000
        = (some (.error "connect ETIMEDOUT transient network error"), [])
    ∧ (∀ j, j < 3 → fnFail3 j = .error (eFail3 j))
    ∧ fnFail3 3 = .ok 7
    ∧ 3 < 5
    ∧ invokeGitHubREST fnFail3 5 2000
        = (some (.ok 7), (List.range 3).map (fun j => 2000 * 2 ^ j)) :=
  ⟨rfl, by decide, by decide,
   (transient_retry_amended fnTransient eFail3 5 2000 3 7).1
     "connect ETIMEDOUT transient network error" rfl (by decide) (by decide),
   by decide, by decide, by decide,
   (transient_retry_amended fnFail3 eFail3 5 2000 3 7).2.1
     (by decide) (by decide) (by decide)⟩

/-- The part_000 REST page loop assembles exactly the source's items and
performs `length / pageSize + 1` fetches: it stops at the first short
(or empty) page. -/
theorem psRestGo_spec (pageSize : Nat) (h : 0 < pageSize) :
    ∀ (fuel : Nat) (items : List A), items.length < fuel →
      psRestGo pageSize items fuel = (items, items.length / pageSize + 1) := by
  intro fuel
  induction fuel with
  | zero =>
    intro items hlen
    exact absurd hlen (by omega)
  | succ fuel ih =>
    intro items hlen
    rw [psRestGo]
    by_cases hc : (items.take pageSize).length = pageSize ∧ 0 < pageSize
    · rw [if_pos hc]
      have hple : pageSize ≤ items.length := by
        have h1 := hc.1
        rw [List.length_take] at h1
        omega
      have hrec := ih (items.drop pageSize) (by rw [List.length_drop]; omega)
      rw [hrec, List.take_append_drop, List.length_drop,
        Nat.div_eq_sub_div h hple]
    · rw [if_neg hc]
      have hlt : items.length < pageSize := by
        by_contra hge
        push_neg at hge
        exact hc ⟨by rw [List.length_take]; omega, h⟩
      rw [List.take_of_length_le (by omega), Nat.div_eq_of_lt hlt]

/-- The index.js `repoNames` page loop also assembles exactly the source's
items (it merely performs one extra fetch after a short page). -/
theorem jsRestGo_collects (pageSize : Nat) (h : 0 < pageSize) :
    ∀ (fuel : Nat) (items : List A), items.length < fuel →
      (jsRestGo pageSize items fuel).1 = items := by
  intro fuel
  induction fuel with
  | zero =>
    intro items hlen
    exact absurd hlen (by omega)
  | succ fuel ih =>
    intro items hlen
    rw [jsRestGo]
    by_cases hc : (items.take pageSize).isEmpty
    · rw [if_pos hc]
      have hitems : items = [] := by
        rcases List.take_eq_nil_iff.mp (List.isEmpty_iff.mp hc) with h0 | h0
        · omega
        · exact h0
      rw [hitems]
    · rw [if_neg hc]
      have hne : items ≠ [] := by
        intro h0
        subst h0
        simp at hc
      have hpos : 0 < items.length := List.length_pos.mpr hne
      have hrec := ih (items.drop pageSize) (by rw [List.length_drop]; omega)
      show items.take pageSize ++ (jsRestGo pageSize (items.drop pageSize) fuel).1 = items
      rw [hrec, List.take_append_drop]

/-- C7 amended: for every positive page size, both offset/page REST loops
assemble exactly the items the paged source holds, with no duplicates and
no omissions (e.g. 250 items over page size 100 yield exactly 250 items);
the part_000 loops continue exactly while the last page was full, so a
short final page and an empty page both terminate them after
`length / pageSize + 1` fetches, while the index.js `repoNames` loop
continues until an empty page. -/
theorem paging_assembles_all_amended (pageSize : Nat) (items : List A)
    (h : 0 < pageSize) :
    psRestCollect pageSize items = (items, items.length / pageSize + 1)
    ∧ (jsRestCollect pageSize items).1 = items := by
  constructor
  · exact psRestGo_spec pageSize h (items.length + 1) items (by omega)
  · exact jsRestGo_collects pageSize h (items.length + 1) items (by omega)

/-- C7 amended witness: 250 items over page size 100. -/
theorem paging_assembles_all_amended_witness :
    0 < 100
    ∧ psRestCollect 100 (List.range 250)
        = (List.range 250, (List.range 250).length / 100 + 1)
    ∧ (jsRestCollect 100 (List.range 250)).1 = List.range 250 :=
  ⟨by decide,
   (paging_assembles_all_amended 100 (List.range 250) (by decide)).1,
   (paging_assembles_all_amended 100 (List.range 250) (by decide)).2⟩

/-- Step equation of `cursorLoop`. -/
theorem cursorLoop_succ (pages : List (List A)) (fuel c : Nat) (acc : List A) :
    cursorLoop pages (fuel + 1) c acc =
      if c + 1 < pages.length then
        cursorLoop pages fuel (if (pages.getD c []).isEmpty then c else c + 1)
          (acc ++ pages.getD c [])
      else some (acc ++ pages.getD c []) := by
  rw [cursorLoop]

/-- With every non-final page non-empty, the cursor loop started at page `c`
with enough fuel returns the accumulator followed by all remaining items. -/
theorem cursorLoop_complete (pages : List (List A))
    (hpre : ∀ l ∈ pages.dropLast, l ≠ []) :
    ∀ (n c : Nat) (acc : List A), pages.length ≤ c + n →
      cursorLoop pages (n + 1) c acc = some (acc ++ (pages.drop c).flatten) := by
  intro n
  induction n with
  | zero =>
    intro c acc hlen
    rw [cursorLoop_succ, if_neg (by omega)]
    have h1 : pages.getD c [] = [] := by
      rw [List.getD_eq_getElem?_getD, List.getElem?_eq_none (by omega)]
      rfl
    have h2 : pages.drop c = [] := List.drop_eq_nil_of_le (by omega)
    rw [h1, h2]
    simp
  | succ n ih =>
    intro c acc hlen
    by_cases hc : c + 1 < pages.length
    · rw [cursorLoop_succ, if_pos hc]
      have hcl : c < pages.length := by omega
      have hgetd : pages.getD c [] = pages[c] := by
        rw [List.getD_eq_getElem?_getD, List.getElem?_eq_getElem hcl]
        rfl
      have hmem : pages[c] ∈ pages.dropLast := by
        have hdl : c < pages.dropLast.length := by
          rw [List.length_dropLast]
          omega
        have hge := List.getElem_dropLast pages c hdl
        rw [← hge]
        exact List.getElem_mem hdl
      have hne : pages[c] ≠ [] := hpre _ hmem
      have hempty : (pages.getD c []).isEmpty = false := by
        cases h0 : (pages.getD c []).isEmpty
        · rfl
        · rw [hgetd] at h0
          exact absurd (List.isEmpty_iff.mp h0) hne
      rw [hempty]
      simp only [Bool.false_eq_true, if_false]
      rw [ih (c + 1) (acc ++ pages.getD c []) (by omega), hgetd, List.append_assoc]
      have hdrop : pages.drop c = pages[c] :: pages.drop (c + 1) :=
        List.drop_eq_getElem_cons hcl
      rw [hdrop, List.flatten_cons]
    · rw [cursorLoop_succ, if_neg hc]
      by_cases hcl : c < pages.length
      · have hgetd : pages.getD c [] = pages[c] := by
          rw [List.getD_eq_getElem?_getD, List.getElem?_eq_getElem hcl]
          rfl
        have hdrop : pages.drop c = pages[c] :: pages.drop (c + 1) :=
          List.drop_eq_getElem_cons hcl
        have hdrop2 : pages.drop (c + 1) = [] := List.drop_eq_nil_of_le (by omega)
        rw [hgetd, hdrop, hdrop2, List.flatten_cons]
        simp
      · have h1 : pages.getD c [] = [] := by
          rw [List.getD_eq_getElem?_getD, List.getElem?_eq_none (by omega)]
          rfl
        have h2 : pages.drop c = [] := List.drop_eq_nil_of_le (by omega)
        rw [h1, h2]
        simp

/-- A non-final empty page wedges the loop: the cursor is reassigned only
inside the per-item loop, so with no items it never advances and the fuel
runs out no matter how large. -/
theorem cursorLoop_stuck (pages : List (List A)) (c : Nat)
    (hc : c + 1 < pages.length) (he : pages.getD c [] = []) :
    ∀ (fuel : Nat) (acc : List A), cursorLoop pages fuel c acc = none := by
  intro fuel
  induction fuel with
  | zero =>
    intro acc
    rw [cursorLoop]
  | succ fuel ih =>
    intro acc
    rw [cursorLoop_succ, if_pos hc, he]
    simp only [List.isEmpty_nil, if_true, List.append_nil]
    exact ih acc

/-- Starting at page `c`, if a non-final empty page at `i ≥ c` is preceded
(from `c` on) only by non-empty pages, the loop never terminates. -/
theorem cursorLoop_stuck_from (pages : List (List A)) (i : Nat)
    (hi : i + 1 < pages.length) (he : pages.getD i [] = []) :
    ∀ (k c : Nat), i - c = k → c ≤ i →
      (∀ j, c ≤ j → j < i → pages.getD j [] ≠ []) →
      ∀ (fuel : Nat) (acc : List A), cursorLoop pages fuel c acc = none := by
  intro k
  induction k with
  | zero =>
    intro c hk hci _
    have hceq : c = i := by omega
    subst hceq
    exact cursorLoop_stuck pages c hi he
  | succ k ih =>
    intro c hk hci hnone
    have hclt : c < i := by omega
    have hcne : pages.getD c [] ≠ [] := hnone c (le_refl c) hclt
    have hcp1 : c + 1 < pages.length := by omega
    intro fuel acc
    cases fuel with
    | zero => rw [cursorLoop]
    | succ fuel =>
      rw [cursorLoop_succ, if_pos hcp1]
      have hemp : (pages.getD c []).isEmpty = false := by
        cases h0 : (pages.getD c []).isEmpty
        · rfl
        · exact absurd (List.isEmpty_iff.mp h0) hcne
      rw [hemp]
      simp only [Bool.false_eq_true, if_false]
      exact ih (c + 1) (by omega) (by omega)
        (fun j hj1 hj2 => hnone j (by omega) hj2) fuel (acc ++ pages.getD c [])

/-- Any non-final empty page makes the loop run forever from the start. -/
theorem cursorLoop_empty_none (pages : List (List A)) :
    ∀ i, i + 1 < pages.length → pages.getD i [] = [] →
      ∀ (fuel : Nat), cursorLoop pages fuel 0 [] = none := by
  intro i
  induction i using Nat.strong_induction_on with
  | _ i ih =>
    intro hi he fuel
    by_cases hall : ∀ j, j < i → pages.getD j [] ≠ []
    · exact cursorLoop_stuck_from pages i hi he i 0 (by omega) (by omega)
        (fun j _ hj2 => hall j hj2) fuel []
    · push_neg at hall
      obtain ⟨j, hj, hjeq⟩ := hall
      exact ih j hj (by omega) hjeq fuel

/-- C9: each GraphQL cursor loop (repositories, org members, SSO
identities) terminates exactly when every page reporting
`hasNextPage = true` — i.e. every non-final page — holds at least one item:
with that precondition, `pages.length + 1` loop iterations assemble all
items (no duplicates, no omissions); without it, the cursor never advances
past the empty non-final page and the loop runs forever (no fuel
suffices). -/
theorem cursor_loop_termination (pages : List (List A)) :
    ((∀ l ∈ pages.dropLast, l ≠ []) →
      cursorLoop pages (pages.length + 1) 0 [] = some pages.flatten)
    ∧ ((¬ ∀ l ∈ pages.dropLast, l ≠ []) →
      ∀ fuel, cursorLoop pages fuel 0 [] = none) := by
  constructor
  · intro hpre
    have h := cursorLoop_complete pages hpre pages.length 0 [] (by omega)
    simpa using h
  · intro hnpre
    push_neg at hnpre
    obtain ⟨l, hl, hleq⟩ := hnpre
    obtain ⟨i, hilen, hieq⟩ := List.getElem_of_mem hl
    have hi1 : i + 1 < pages.length := by
      rw [List.length_dropLast] at hilen
      omega
    have hilt : i < pages.length := by omega
    have hgd : pages.getD i [] = [] := by
      have hig : pages[i] = l := by
        rw [← List.getElem_dropLast pages i hilen]
        exact hieq
      rw [List.getD_eq_getElem?_getD, List.getElem?_eq_getElem hilt]
      simp [hig, hleq]
    intro fuel
    exact cursorLoop_empty_none pages i hi1 hgd fuel

/-- C9 witness: three one-item pages terminate with all three items in
order; an empty non-final page never terminates (shown at fuel 7). -/
theorem cursor_loop_termination_witness :
    (∀ l ∈ ([[1], [2], [3]] : List (List Nat)).dropLast, l ≠ [])
    ∧ cursorLoop ([[1], [2], [3]] : List (List Nat))
        (([[1], [2], [3]] : List (List Nat)).length + 1) 0 []
        = some ([[1], [2], [3]] : List (List Nat)).flatten
    ∧ (¬ ∀ l ∈ ([[], [5]] : List (List Nat)).dropLast, l ≠ [])
    ∧ cursorLoop ([[], [5]] : List (List Nat)) 7 0 [] = none :=
  ⟨by decide,
   (cursor_loop_termination [[1], [2], [3]]).1 (by decide),
   by decide,
   (cursor_loop_termination [[], [5]]).2 (by decide) 7⟩

/-- C8 witness: alice is an `ADMIN` member; the single merged row for her
carries role `ADMIN`, and would carry `OUTSIDE COLLABORATOR` only were no
member to match. -/
theorem org_role_lookup_witness :
    (∀ m1 ∈ [(⟨"alice", "ADMIN"⟩ : Member)], ∀ m2 ∈ [(⟨"alice", "ADMIN"⟩ : Member)],
        m1.login = m2.login → m1 = m2)
    ∧ ∀ r ∈ mergeArrays [⟨"repo1", "alice", "Alice", "", "admin", "private", "acme"⟩]
          [] [(⟨"alice", "ADMIN"⟩ : Member)],
        (∀ mm ∈ [(⟨"alice", "ADMIN"⟩ : Member)], mm.login = r.login →
            r.memberValue = mm.role)
        ∧ ((∀ mm ∈ [(⟨"alice", "ADMIN"⟩ : Member)], mm.login ≠ r.login) →
            r.memberValue = "OUTSIDE COLLABORATOR") :=
  ⟨by decide,
   org_role_lookup [⟨"repo1", "alice", "Alice", "", "admin", "private", "acme"⟩]
     [] [⟨"alice", "ADMIN"⟩] (by decide)⟩
